import Mathlib

/-!
# Verification of `atomic-borrow` (`src/lib.rs`)

A shallow embedding of the `AtomicBorrow` reference counter and its guard
types.  The atomic `usize` word is modelled as a `Nat` together with the
word width `W` (the number of bits of `usize`); wrapping arithmetic is
explicit `% 2 ^ W`.  Each public operation is modelled as a pure function
from the word to its result and the updated word, taken as one atomic
step.  A `panic!` (the borrow-counter overflow in `borrow`) is modelled
as `Option.none`; the `debug_assert` checks of the release operations do
not change the word (the store happens before the assertion fires), so
they are modelled as separate predicates on the word the operation read.
-/

namespace AtomicBorrow

/-- `usize::MAX` for word width `W`: the all-ones word. -/
def usizeMax (W : Nat) : Nat := 2 ^ W - 1

/-- `AtomicBorrow::SHARED_MASK = usize::MAX >> 1`: mask of the shared
borrow count (the low `W - 1` bits). -/
def SHARED_MASK (W : Nat) : Nat := usizeMax W >>> 1

/-- `AtomicBorrow::UNIQUE_MASK = !SHARED_MASK`: mask of the unique borrow
bit (bitwise complement within `W` bits, i.e. xor with all ones). -/
def UNIQUE_MASK (W : Nat) : Nat := usizeMax W ^^^ SHARED_MASK W

/-- `AtomicBorrow::new()`: the initial word is `0`. -/
def new : Nat := 0

/-- Wrapping addition on a `W`-bit word (`fetch_add` result). -/
def wrapAdd (W w n : Nat) : Nat := (w + n) % 2 ^ W

/-- Wrapping subtraction on a `W`-bit word (`fetch_sub` result). -/
def wrapSub (W w n : Nat) : Nat := (w + (2 ^ W - n % 2 ^ W)) % 2 ^ W

/-- `AtomicBorrow::shared_count()`: the word masked with `SHARED_MASK`. -/
def shared_count (W w : Nat) : Nat := w &&& SHARED_MASK W

/-- `AtomicBorrow::is_unique()`: whether `word & UNIQUE_MASK == 0`. -/
def is_unique (W w : Nat) : Bool := w &&& UNIQUE_MASK W == 0

/-- `AtomicBorrow::is_borrowed()`: whether the word is nonzero. -/
def is_borrowed (w : Nat) : Bool := w != 0

/-- `AtomicBorrow::borrow()`: fetch-add 1, panic (`none`) if the prior
shared bits were saturated, undo the increment and return `false` if the
prior unique bit was set, otherwise return `true`.  The returned pair is
(result, updated word). -/
def borrow (W w : Nat) : Option (Bool × Nat) :=
  let prev := w
  let w1 := wrapAdd W w 1
  if prev &&& SHARED_MASK W == SHARED_MASK W then
    none
  else if prev &&& UNIQUE_MASK W != 0 then
    some (false, wrapSub W w1 1)
  else
    some (true, w1)

/-- `AtomicBorrow::borrow_mut()`: compare-and-swap the word from `0` to
`UNIQUE_MASK`; returns whether the exchange succeeded, with the updated
word. -/
def borrow_mut (W w : Nat) : Bool × Nat :=
  if w == 0 then (true, UNIQUE_MASK W) else (false, w)

/-- `AtomicBorrow::release()`: fetch-sub 1 on the whole word (the
`debug_assert` checks fire after the store and are modelled by
`releaseAssertOk`). -/
def release (W w : Nat) : Nat := wrapSub W w 1

/-- The `debug_assert` conditions of `release` on the prior word: not
zero, and the unique bit clear. -/
def releaseAssertOk (W w : Nat) : Prop := w ≠ 0 ∧ w &&& UNIQUE_MASK W = 0

/-- `AtomicBorrow::release_mut()`: fetch-and with `!UNIQUE_MASK`. -/
def release_mut (W w : Nat) : Nat := w &&& (usizeMax W ^^^ UNIQUE_MASK W)

/-- The `debug_assert` condition of `release_mut` on the prior word: the
unique bit was set. -/
def release_mutAssertOk (W w : Nat) : Prop := w &&& UNIQUE_MASK W ≠ 0

/-- One atomic step of any of the four mutating public operations, with
no restriction other than `borrow`'s overflow panic stopping execution
(a `none` result yields no successor state). -/
inductive Step (W : Nat) : Nat → Nat → Prop where
  | borrow {w w' : Nat} {b : Bool} : borrow W w = some (b, w') → Step W w w'
  | borrow_mut {w w' : Nat} {b : Bool} : borrow_mut W w = (b, w') → Step W w w'
  | release {w : Nat} : Step W w (release W w)
  | release_mut {w : Nat} : Step W w (release_mut W w)

/-- States reachable from the initial free word by panic-free steps. -/
def Reachable (W w : Nat) : Prop := Relation.ReflTransGen (Step W) new w

/-- One atomic step as in `Step`, but with the release operations only
taken when their `debug_assert` conditions hold (correctly bracketed
usage). -/
inductive StepOk (W : Nat) : Nat → Nat → Prop where
  | borrow {w w' : Nat} {b : Bool} : borrow W w = some (b, w') → StepOk W w w'
  | borrow_mut {w w' : Nat} {b : Bool} : borrow_mut W w = (b, w') → StepOk W w w'
  | release {w : Nat} : releaseAssertOk W w → StepOk W w (release W w)
  | release_mut {w : Nat} : release_mutAssertOk W w → StepOk W w (release_mut W w)

/-- States reachable from the initial free word by steps that respect the
release `debug_assert` conditions. -/
def ReachableOk (W w : Nat) : Prop := Relation.ReflTransGen (StepOk W) new w

end AtomicBorrow

/-- `SharedGuard`: holds the data pointer (the `AtomicBorrow` reference
is the threaded word state). -/
structure SharedGuard (α : Type) where
  data : α
deriving DecidableEq

/-- `UniqueGuard`: holds the mutable data pointer. -/
structure UniqueGuard (α : Type) where
  data : α
deriving DecidableEq

/-- `SharedGuard::try_new`: calls `AtomicBorrow::borrow`; on `true` wraps
the pointer in a guard, on `false` yields no guard.  Outer `none` is the
overflow panic propagating out of `borrow`. -/
def SharedGuard.try_new (W : Nat) (data : α) (w : Nat) :
    Option (Option (SharedGuard α) × Nat) :=
  match AtomicBorrow.borrow W w with
  | none => none
  | some (true, w') => some (some ⟨data⟩, w')
  | some (false, w') => some (none, w')

/-- `UniqueGuard::try_new`: calls `AtomicBorrow::borrow_mut`; on `true`
wraps the pointer in a guard, on `false` yields no guard. -/
def UniqueGuard.try_new (W : Nat) (data : α) (w : Nat) :
    Option (UniqueGuard α) × Nat :=
  match AtomicBorrow.borrow_mut W w with
  | (true, w') => (some ⟨data⟩, w')
  | (false, w') => (none, w')

namespace AtomicBorrow

/-- Iterate `borrow` from the free word, requiring success each time:
`borrowN W k` is the word after `k` consecutive successful shared
acquisitions (`none` if any of them panicked or returned `false`). -/
def borrowN (W : Nat) : Nat → Option Nat
  | 0 => some new
  | k + 1 =>
    match borrowN W k with
    | none => none
    | some w =>
      match borrow W w with
      | some (true, w') => some w'
      | _ => none

end AtomicBorrow

namespace AtomicBorrow

theorem two_pow_split {W : Nat} (hW : 1 ≤ W) : 2 ^ W = 2 * 2 ^ (W - 1) := by
  conv_lhs => rw [show W = (W - 1) + 1 by omega]
  rw [Nat.pow_succ]
  ring

theorem SHARED_MASK_eq {W : Nat} (hW : 1 ≤ W) : SHARED_MASK W = 2 ^ (W - 1) - 1 := by
  unfold SHARED_MASK usizeMax
  rw [Nat.shiftRight_eq_div_pow]
  have h := two_pow_split hW
  have h1 : 0 < 2 ^ (W - 1) := Nat.pos_pow_of_pos _ (by omega)
  omega

theorem UNIQUE_MASK_eq {W : Nat} (hW : 1 ≤ W) : UNIQUE_MASK W = 2 ^ (W - 1) := by
  unfold UNIQUE_MASK usizeMax
  rw [SHARED_MASK_eq hW]
  apply Nat.eq_of_testBit_eq
  intro i
  rw [Nat.testBit_xor, Nat.testBit_two_pow_sub_one, Nat.testBit_two_pow_sub_one,
    Nat.testBit_two_pow]
  by_cases h1 : i < W <;> by_cases h2 : i < W - 1 <;>
    simp [h1, h2] <;> omega

theorem and_SHARED {W : Nat} (hW : 1 ≤ W) (w : Nat) :
    w &&& SHARED_MASK W = w % 2 ^ (W - 1) := by
  rw [SHARED_MASK_eq hW, Nat.and_pow_two_sub_one_eq_mod]

theorem and_UNIQUE {W w : Nat} (hW : 1 ≤ W) (hw : w < 2 ^ W) :
    w &&& UNIQUE_MASK W = if w < 2 ^ (W - 1) then 0 else 2 ^ (W - 1) := by
  rw [UNIQUE_MASK_eq hW, Nat.and_two_pow, Nat.testBit_to_div_mod]
  have hsplit := two_pow_split hW
  have h1 : 0 < 2 ^ (W - 1) := Nat.pos_pow_of_pos _ (by omega)
  by_cases h : w < 2 ^ (W - 1)
  · rw [Nat.div_eq_of_lt h]
    simp [h]
  · have hdiv : w / 2 ^ (W - 1) = 1 := by
      have h2 : w = 2 ^ (W - 1) * 1 + (w - 2 ^ (W - 1)) := by omega
      rw [h2, Nat.mul_add_div h1]
      have h3 : (w - 2 ^ (W - 1)) / 2 ^ (W - 1) = 0 := Nat.div_eq_of_lt (by omega)
      omega
    rw [hdiv]
    simp [h]

end AtomicBorrow

namespace AtomicBorrow

/-- Arithmetic characterisation of `borrow` on an in-range word. -/
theorem borrow_eq {W w : Nat} (hW : 1 ≤ W) (hw : w < 2 ^ W) :
    borrow W w =
      if w % 2 ^ (W - 1) = 2 ^ (W - 1) - 1 then none
      else if 2 ^ (W - 1) ≤ w then some (false, w)
      else some (true, w + 1) := by
  have hsplit := two_pow_split hW
  have h1 : 0 < 2 ^ (W - 1) := Nat.pos_pow_of_pos _ (by omega)
  have hone : (1 : Nat) % 2 ^ W = 1 := Nat.mod_eq_of_lt (by omega)
  unfold borrow wrapAdd wrapSub
  dsimp only
  rw [and_SHARED hW, and_UNIQUE hW hw, SHARED_MASK_eq hW, hone]
  by_cases hov : w % 2 ^ (W - 1) = 2 ^ (W - 1) - 1
  · simp [hov]
  · by_cases hu : w < 2 ^ (W - 1)
    · have hlt : w + 1 < 2 ^ W := by omega
      have hle : ¬ 2 ^ (W - 1) ≤ w := by omega
      rw [Nat.mod_eq_of_lt hlt]
      simp [hov, hu, hle]
    · have hle : 2 ^ (W - 1) ≤ w := by omega
      have hw1 : ((w + 1) % 2 ^ W + (2 ^ W - 1)) % 2 ^ W = w := by
        rcases Nat.lt_or_ge (w + 1) (2 ^ W) with h | h
        · rw [Nat.mod_eq_of_lt h]
          have heq : w + 1 + (2 ^ W - 1) = w + 2 ^ W := by omega
          rw [heq, Nat.add_mod_right, Nat.mod_eq_of_lt hw]
        · have hw1 : w + 1 = 2 ^ W := by omega
          rw [hw1, Nat.mod_self, Nat.zero_add, Nat.mod_eq_of_lt (by omega)]
          omega
      simp [hov, hu, hle, h1.ne', hw1]

/-- Arithmetic characterisation of `release` on an in-range word. -/
theorem release_eq {W w : Nat} (hW : 1 ≤ W) (hw : w < 2 ^ W) :
    release W w = if w = 0 then 2 ^ W - 1 else w - 1 := by
  have hsplit := two_pow_split hW
  have h1 : 0 < 2 ^ (W - 1) := Nat.pos_pow_of_pos _ (by omega)
  have hone : (1 : Nat) % 2 ^ W = 1 := Nat.mod_eq_of_lt (by omega)
  unfold release wrapSub
  rw [hone]
  by_cases h0 : w = 0
  · subst h0
    rw [Nat.zero_add, Nat.mod_eq_of_lt (by omega)]
    simp
  · have heq : w + (2 ^ W - 1) = (w - 1) + 2 ^ W := by omega
    rw [heq, Nat.add_mod_right, Nat.mod_eq_of_lt (by omega)]
    simp [h0]

/-- `!UNIQUE_MASK` is `SHARED_MASK`, so `release_mut` masks with it. -/
theorem release_mut_eq (W w : Nat) :
    release_mut W w = w &&& SHARED_MASK W := by
  unfold release_mut UNIQUE_MASK
  rw [← Nat.xor_assoc, Nat.xor_self, Nat.zero_xor]

/-- Arithmetic characterisation of `release_mut`. -/
theorem release_mut_mod {W : Nat} (hW : 1 ≤ W) (w : Nat) :
    release_mut W w = w % 2 ^ (W - 1) := by
  rw [release_mut_eq, and_SHARED hW]

end AtomicBorrow

namespace AtomicBorrow

/-- C2: `borrow_mut` (try_acquire_unique) returns `true` iff the word is
exactly `0`; on success the word becomes exactly `UNIQUE_MASK`, i.e.
`2 ^ (W - 1)` (top bit set, all other bits zero), and on any nonzero word
it returns `false` and leaves the word unchanged. -/
theorem borrow_mut_iff_free (W w : Nat) (hW : 1 ≤ W) :
    ((borrow_mut W w).1 = true ↔ w = 0) ∧
    (w = 0 → borrow_mut W w = (true, UNIQUE_MASK W) ∧ UNIQUE_MASK W = 2 ^ (W - 1)) ∧
    (w ≠ 0 → borrow_mut W w = (false, w)) := by
  have hm := UNIQUE_MASK_eq hW
  unfold borrow_mut
  by_cases h : w = 0 <;> simp [h, hm]

/-- Witness for `borrow_mut_iff_free` at `W = 4`, `w = 5`. -/
theorem borrow_mut_iff_free_witness :
    ((borrow_mut 4 5).1 = true ↔ (5 : Nat) = 0) ∧
    ((5 : Nat) = 0 → borrow_mut 4 5 = (true, UNIQUE_MASK 4) ∧ UNIQUE_MASK 4 = 2 ^ (4 - 1)) ∧
    ((5 : Nat) ≠ 0 → borrow_mut 4 5 = (false, 5)) :=
  borrow_mut_iff_free 4 5 (by decide)

/-- C6: `is_unique` returns `true` iff the top (`unique_flag`) bit of the
word is clear, i.e. it reports that no exclusive borrow is held, not that
the state is itself uniquely borrowed. -/
theorem is_unique_iff_top_bit_clear (W w : Nat) (hW : 1 ≤ W) :
    is_unique W w = true ↔ w.testBit (W - 1) = false := by
  unfold is_unique
  rw [UNIQUE_MASK_eq hW, Nat.and_two_pow]
  have h1 : 0 < 2 ^ (W - 1) := Nat.pos_pow_of_pos _ (by omega)
  cases h : w.testBit (W - 1) <;> simp [h]

/-- Witness for `is_unique_iff_top_bit_clear` at `W = 4`, `w = 9`. -/
theorem is_unique_iff_top_bit_clear_witness :
    is_unique 4 9 = true ↔ (9 : Nat).testBit (4 - 1) = false :=
  is_unique_iff_top_bit_clear 4 9 (by decide)

/-- C7: `release_mut` clears exactly the `unique_flag` (top) bit: every
bit below `W - 1` is unchanged, bit `W - 1` becomes clear, and the
masked shared count is unchanged. -/
theorem release_mut_frame (W w : Nat) (hW : 1 ≤ W) :
    (∀ i, i < W - 1 → (release_mut W w).testBit i = w.testBit i) ∧
    (release_mut W w).testBit (W - 1) = false ∧
    shared_count W (release_mut W w) = shared_count W w ∧
    release_mut W w &&& UNIQUE_MASK W = 0 := by
  rw [release_mut_mod hW]
  have h1 : 0 < 2 ^ (W - 1) := Nat.pos_pow_of_pos _ (by omega)
  refine ⟨?_, ?_, ?_, ?_⟩
  · intro i hi
    rw [Nat.testBit_mod_two_pow]
    simp [hi]
  · rw [Nat.testBit_mod_two_pow]
    simp
  · unfold shared_count
    rw [and_SHARED hW, and_SHARED hW, Nat.mod_mod_of_dvd _ dvd_rfl]
  · rw [UNIQUE_MASK_eq hW, Nat.and_two_pow, Nat.testBit_mod_two_pow]
    simp

/-- Witness for `release_mut_frame` at `W = 4`, `w = 13`. -/
theorem release_mut_frame_witness :
    (∀ i, i < 4 - 1 → (release_mut 4 13).testBit i = (13 : Nat).testBit i) ∧
    (release_mut 4 13).testBit (4 - 1) = false ∧
    shared_count 4 (release_mut 4 13) = shared_count 4 13 ∧
    release_mut 4 13 &&& UNIQUE_MASK 4 = 0 :=
  release_mut_frame 4 13 (by decide)

end AtomicBorrow

namespace AtomicBorrow

/-- C9: while an exclusive borrow is held (the word is `UNIQUE_MASK`, as
produced by a successful `borrow_mut` from the free word), the observers
report `shared_count = 0`, `is_borrowed = true` and `is_unique = false`. -/
theorem observers_under_exclusive (W : Nat) (hW : 1 ≤ W) :
    borrow_mut W new = (true, UNIQUE_MASK W) ∧
    shared_count W (UNIQUE_MASK W) = 0 ∧
    is_borrowed (UNIQUE_MASK W) = true ∧
    is_unique W (UNIQUE_MASK W) = false := by
  have h1 : 0 < 2 ^ (W - 1) := Nat.pos_pow_of_pos _ (by omega)
  have hm := UNIQUE_MASK_eq hW
  refine ⟨rfl, ?_, ?_, ?_⟩
  · unfold shared_count
    rw [and_SHARED hW, hm, Nat.mod_self]
  · unfold is_borrowed
    simp [hm]
  · unfold is_unique
    rw [Nat.and_self, hm]
    simp

/-- Witness for `observers_under_exclusive` at `W = 4`. -/
theorem observers_under_exclusive_witness :
    borrow_mut 4 new = (true, UNIQUE_MASK 4) ∧
    shared_count 4 (UNIQUE_MASK 4) = 0 ∧
    is_borrowed (UNIQUE_MASK 4) = true ∧
    is_unique 4 (UNIQUE_MASK 4) = false :=
  observers_under_exclusive 4 (by decide)

/-- C10: with debug assertions disabled, `release` on the exclusively
borrowed word `UNIQUE_MASK = 2 ^ (W - 1)` wraps the whole word down to
`SHARED_MASK = 2 ^ (W - 1) - 1`: the unique bit becomes clear and the
shared count becomes its maximum value. -/
theorem release_on_exclusive_underflow (W : Nat) (hW : 1 ≤ W) :
    release W (UNIQUE_MASK W) = SHARED_MASK W ∧
    UNIQUE_MASK W = 2 ^ (W - 1) ∧
    SHARED_MASK W = 2 ^ (W - 1) - 1 ∧
    release W (UNIQUE_MASK W) &&& UNIQUE_MASK W = 0 ∧
    shared_count W (release W (UNIQUE_MASK W)) = SHARED_MASK W := by
  have h1 : 0 < 2 ^ (W - 1) := Nat.pos_pow_of_pos _ (by omega)
  have hsplit := two_pow_split hW
  have hm := UNIQUE_MASK_eq hW
  have hs := SHARED_MASK_eq hW
  have hrel : release W (UNIQUE_MASK W) = SHARED_MASK W := by
    rw [hm, hs, release_eq hW (by omega)]
    simp [h1.ne']
  refine ⟨hrel, hm, hs, ?_, ?_⟩
  · rw [hrel, hs, hm, Nat.and_two_pow, Nat.testBit_two_pow_sub_one]
    simp
  · unfold shared_count
    rw [hrel, and_SHARED hW, hs, Nat.mod_eq_of_lt (by omega)]

/-- Witness for `release_on_exclusive_underflow` at `W = 4`. -/
theorem release_on_exclusive_underflow_witness :
    release 4 (UNIQUE_MASK 4) = SHARED_MASK 4 ∧
    UNIQUE_MASK 4 = 2 ^ (4 - 1) ∧
    SHARED_MASK 4 = 2 ^ (4 - 1) - 1 ∧
    release 4 (UNIQUE_MASK 4) &&& UNIQUE_MASK 4 = 0 ∧
    shared_count 4 (release 4 (UNIQUE_MASK 4)) = SHARED_MASK 4 :=
  release_on_exclusive_underflow 4 (by decide)

end AtomicBorrow

namespace AtomicBorrow

/-- C3: `borrow` (try_acquire_shared) follows the optimistic-increment
algorithm: if the prior shared bits are saturated it panics (`none`);
otherwise if the prior unique bit is set it undoes the increment and
returns `false` with the word's net value unchanged; otherwise it returns
`true` with the shared count increased by exactly 1.  In particular, on
every word with the unique bit set it never returns `true`. -/
theorem borrow_algorithm (W w : Nat) (hW : 1 ≤ W) (hw : w < 2 ^ W) :
    (w &&& SHARED_MASK W = SHARED_MASK W → borrow W w = none) ∧
    (w &&& SHARED_MASK W ≠ SHARED_MASK W → w &&& UNIQUE_MASK W ≠ 0 →
      borrow W w = some (false, w)) ∧
    (w &&& SHARED_MASK W ≠ SHARED_MASK W → w &&& UNIQUE_MASK W = 0 →
      borrow W w = some (true, w + 1) ∧
      shared_count W (w + 1) = shared_count W w + 1) ∧
    (w &&& UNIQUE_MASK W ≠ 0 → ∀ w', borrow W w ≠ some (true, w')) := by
  have hsplit := two_pow_split hW
  have h1 : 0 < 2 ^ (W - 1) := Nat.pos_pow_of_pos _ (by omega)
  unfold shared_count
  rw [borrow_eq hW hw, and_SHARED hW, and_SHARED hW,
    and_UNIQUE hW hw, SHARED_MASK_eq hW]
  by_cases hov : w % 2 ^ (W - 1) = 2 ^ (W - 1) - 1
  · simp [hov]
  · by_cases hu : w < 2 ^ (W - 1)
    · have hwp : w % 2 ^ (W - 1) = w := Nat.mod_eq_of_lt hu
      have hle : ¬ 2 ^ (W - 1) ≤ w := by omega
      have hw2 : w + 1 < 2 ^ (W - 1) := by omega
      rw [Nat.mod_eq_of_lt hw2]
      simp [hov, hu, hle, hwp]
    · have hle : 2 ^ (W - 1) ≤ w := by omega
      simp [hov, hu, hle, h1.ne']

/-- Witness for `borrow_algorithm` at `W = 4`, `w = 8` (unique bit set). -/
theorem borrow_algorithm_witness :
    ((8 : Nat) &&& SHARED_MASK 4 = SHARED_MASK 4 → borrow 4 8 = none) ∧
    ((8 : Nat) &&& SHARED_MASK 4 ≠ SHARED_MASK 4 → (8 : Nat) &&& UNIQUE_MASK 4 ≠ 0 →
      borrow 4 8 = some (false, 8)) ∧
    ((8 : Nat) &&& SHARED_MASK 4 ≠ SHARED_MASK 4 → (8 : Nat) &&& UNIQUE_MASK 4 = 0 →
      borrow 4 8 = some (true, 8 + 1) ∧
      shared_count 4 (8 + 1) = shared_count 4 8 + 1) ∧
    ((8 : Nat) &&& UNIQUE_MASK 4 ≠ 0 → ∀ w', borrow 4 8 ≠ some (true, w')) :=
  borrow_algorithm 4 8 (by decide) (by decide)

/-- C4: a successful shared acquisition followed by one `release`
restores the exact prior word, and a successful exclusive acquisition
followed by one `release_mut` restores the exact prior word. -/
theorem acquire_release_round_trip (W w : Nat) (hW : 1 ≤ W) (hw : w < 2 ^ W) :
    (∀ w', borrow W w = some (true, w') → release W w' = w) ∧
    (∀ w', borrow_mut W w = (true, w') → release_mut W w' = w) := by
  have hsplit := two_pow_split hW
  have h1 : 0 < 2 ^ (W - 1) := Nat.pos_pow_of_pos _ (by omega)
  constructor
  · intro w' hbw
    rw [borrow_eq hW hw] at hbw
    by_cases hov : w % 2 ^ (W - 1) = 2 ^ (W - 1) - 1
    · simp [hov] at hbw
    · by_cases hu : 2 ^ (W - 1) ≤ w
      · simp [hov, hu] at hbw
      · simp [hov, hu] at hbw
        subst hbw
        rw [release_eq hW (by omega)]
        simp
  · intro w' hbm
    unfold borrow_mut at hbm
    by_cases h0 : w = 0
    · subst h0
      simp at hbm
      subst hbm
      rw [release_mut_mod hW, UNIQUE_MASK_eq hW, Nat.mod_self]
    · simp [h0] at hbm

/-- Witness for `acquire_release_round_trip` at `W = 4`, `w = 3`. -/
theorem acquire_release_round_trip_witness :
    (∀ w', borrow 4 3 = some (true, w') → release 4 w' = 3) ∧
    (∀ w', borrow_mut 4 3 = (true, w') → release_mut 4 w' = 3) :=
  acquire_release_round_trip 4 3 (by decide) (by decide)

end AtomicBorrow

namespace AtomicBorrow

/-- C5: starting from the free word, each of the first `SHARED_MASK =
2 ^ (W - 1) - 1` consecutive shared acquisitions succeeds (`borrowN`
demands a `true` result at every step), reaching the word `k` after `k`
of them; and one further `borrow` on the saturated word `SHARED_MASK`
reaches the fatal overflow panic (`none`), not a silent wraparound. -/
theorem shared_overflow_boundary (W k : Nat) (hW : 1 ≤ W) (hk : k ≤ SHARED_MASK W) :
    borrowN W k = some k ∧ borrow W (SHARED_MASK W) = none := by
  have hsplit := two_pow_split hW
  have h1 : 0 < 2 ^ (W - 1) := Nat.pos_pow_of_pos _ (by omega)
  have hs := SHARED_MASK_eq hW
  constructor
  · induction k with
    | zero => rfl
    | succ n ih =>
      have hn : borrowN W n = some n := ih (by omega)
      have hb : borrow W n = some (true, n + 1) := by
        rw [borrow_eq hW (by omega)]
        have hmod : n % 2 ^ (W - 1) = n := Nat.mod_eq_of_lt (by omega)
        have hov : ¬ n % 2 ^ (W - 1) = 2 ^ (W - 1) - 1 := by omega
        have hu : ¬ 2 ^ (W - 1) ≤ n := by omega
        simp [hov, hu]
      unfold borrowN
      rw [hn]
      dsimp only
      rw [hb]
  · rw [borrow_eq hW (by omega)]
    have hmod : SHARED_MASK W % 2 ^ (W - 1) = SHARED_MASK W :=
      Nat.mod_eq_of_lt (by omega)
    simp [hmod, hs]

/-- Witness for `shared_overflow_boundary` at `W = 3`, `k = SHARED_MASK 3 = 3`. -/
theorem shared_overflow_boundary_witness :
    borrowN 3 3 = some 3 ∧ borrow 3 (SHARED_MASK 3) = none :=
  shared_overflow_boundary 3 3 (by decide) (by decide)

end AtomicBorrow

/-- C8: `SharedGuard::try_new` forwards `borrow`'s result: on `true` it
yields a guard holding exactly the given pointer together with the
updated word, on `false` no guard, and on the overflow panic it panics;
whenever no guard is produced the word is unchanged (failure leaves the
word at its prior value).  `UniqueGuard::try_new` likewise yields a guard
holding the given pointer exactly when `borrow_mut` returns `true`, and
leaves the word unchanged when it returns no guard. -/
theorem guard_try_new_correct (α : Type) (p q : α) (W w : Nat)
    (hW : 1 ≤ W) (hw : w < 2 ^ W) :
    SharedGuard.try_new W p w =
      Option.map (fun r => (if r.1 then some (SharedGuard.mk p) else none, r.2))
        (AtomicBorrow.borrow W w) ∧
    (SharedGuard.try_new W p w = none ∨
      SharedGuard.try_new W p w = some (none, w) ∨
      SharedGuard.try_new W p w = some (some (SharedGuard.mk p), w + 1)) ∧
    UniqueGuard.try_new W q w =
      (if (AtomicBorrow.borrow_mut W w).1 then some (UniqueGuard.mk q) else none,
        (AtomicBorrow.borrow_mut W w).2) ∧
    ((AtomicBorrow.borrow_mut W w).1 = false → UniqueGuard.try_new W q w = (none, w)) := by
  have hb := AtomicBorrow.borrow_eq hW hw
  refine ⟨?_, ?_, ?_, ?_⟩
  · unfold SharedGuard.try_new
    cases hres : AtomicBorrow.borrow W w with
    | none => rfl
    | some r =>
      rcases r with ⟨b, w'⟩
      cases b <;> simp
  · unfold SharedGuard.try_new
    rw [hb]
    by_cases hov : w % 2 ^ (W - 1) = 2 ^ (W - 1) - 1
    · simp [hov]
    · by_cases hu : 2 ^ (W - 1) ≤ w <;> simp [hov, hu]
  · unfold UniqueGuard.try_new AtomicBorrow.borrow_mut
    by_cases h0 : w = 0 <;> simp [h0]
  · unfold UniqueGuard.try_new AtomicBorrow.borrow_mut
    by_cases h0 : w = 0 <;> simp [h0]

/-- Witness for `guard_try_new_correct` at `α = Nat`, `p = 7`, `q = 9`,
`W = 4`, `w = 2`. -/
theorem guard_try_new_correct_witness :
    SharedGuard.try_new 4 (7 : Nat) 2 =
      Option.map (fun r => (if r.1 then some (SharedGuard.mk 7) else none, r.2))
        (AtomicBorrow.borrow 4 2) ∧
    (SharedGuard.try_new 4 (7 : Nat) 2 = none ∨
      SharedGuard.try_new 4 (7 : Nat) 2 = some (none, 2) ∨
      SharedGuard.try_new 4 (7 : Nat) 2 = some (some (SharedGuard.mk 7), 2 + 1)) ∧
    UniqueGuard.try_new 4 (9 : Nat) 2 =
      (if (AtomicBorrow.borrow_mut 4 2).1 then some (UniqueGuard.mk 9) else none,
        (AtomicBorrow.borrow_mut 4 2).2) ∧
    ((AtomicBorrow.borrow_mut 4 2).1 = false → UniqueGuard.try_new 4 (9 : Nat) 2 = (none, 2)) :=
  guard_try_new_correct Nat 7 9 4 2 (by decide) (by decide)

namespace AtomicBorrow

/-- Any `StepOk` step keeps the word at or below `2 ^ (W - 1)` (i.e. the
word is either a pure shared count or exactly `UNIQUE_MASK`). -/
theorem stepOk_preserves {W a c : Nat} (hW : 1 ≤ W) (h : StepOk W a c)
    (ha : a ≤ 2 ^ (W - 1)) : c ≤ 2 ^ (W - 1) := by
  have hsplit := two_pow_split hW
  have h1 : 0 < 2 ^ (W - 1) := Nat.pos_pow_of_pos _ (by omega)
  cases h with
  | borrow hb =>
    rw [borrow_eq hW (by omega)] at hb
    by_cases hov : a % 2 ^ (W - 1) = 2 ^ (W - 1) - 1
    · simp [hov] at hb
    · by_cases hu : 2 ^ (W - 1) ≤ a
      · simp [hov, hu] at hb
        omega
      · simp [hov, hu] at hb
        have hmod : a % 2 ^ (W - 1) = a := Nat.mod_eq_of_lt (by omega)
        omega
  | borrow_mut hb =>
    unfold borrow_mut at hb
    by_cases h0 : a = 0
    · simp [h0] at hb
      rw [← hb.2, UNIQUE_MASK_eq hW]
    · simp [h0] at hb
      omega
  | release hassert =>
    obtain ⟨hne, hclear⟩ := hassert
    rw [and_UNIQUE hW (by omega)] at hclear
    have ha' : a < 2 ^ (W - 1) := by
      by_cases hx : a < 2 ^ (W - 1)
      · exact hx
      · simp [hx] at hclear
    rw [release_eq hW (by omega)]
    simp [hne]
    omega
  | release_mut hassert =>
    rw [release_mut_mod hW]
    have := Nat.mod_lt a h1
    omega

/-- C1 (amended): every word reachable from the free state by the public
operations, where execution stops at the overflow panic and each
`release`/`release_mut` is only performed when its `debug_assert`
conditions hold (word nonzero with unique bit clear, resp. unique bit
set), is in range and satisfies invariant I1: if the `unique_flag` bit is
set the `shared_count` bits are zero. -/
theorem invariant_unique_excludes_shared (W w : Nat) (hW : 1 ≤ W)
    (h : ReachableOk W w) :
    w < 2 ^ W ∧ (w &&& UNIQUE_MASK W ≠ 0 → w &&& SHARED_MASK W = 0) := by
  have hsplit := two_pow_split hW
  have h1 : 0 < 2 ^ (W - 1) := Nat.pos_pow_of_pos _ (by omega)
  have hbound : w ≤ 2 ^ (W - 1) := by
    unfold ReachableOk at h
    induction h with
    | refl => simp [new]
    | tail _ hbc ih => exact stepOk_preserves hW hbc ih
  constructor
  · omega
  · intro hu
    rw [and_UNIQUE hW (by omega)] at hu
    rw [and_SHARED hW]
    by_cases hlt : w < 2 ^ (W - 1)
    · simp [hlt] at hu
    · have hw : w = 2 ^ (W - 1) := by omega
      rw [hw, Nat.mod_self]

/-- Witness for `invariant_unique_excludes_shared` at `W = 4` and the
exclusively borrowed word `8 = UNIQUE_MASK 4`, reached by one
`borrow_mut`. -/
theorem invariant_unique_excludes_shared_witness :
    ReachableOk 4 8 ∧
    (8 : Nat) < 2 ^ 4 ∧ ((8 : Nat) &&& UNIQUE_MASK 4 ≠ 0 → (8 : Nat) &&& SHARED_MASK 4 = 0) := by
  have hreach : ReachableOk 4 8 :=
    Relation.ReflTransGen.single (@StepOk.borrow_mut 4 new 8 true (by decide))
  have h := invariant_unique_excludes_shared 4 8 (by decide) hreach
  exact ⟨hreach, h.1, h.2⟩

/-- C1 as stated is false: from the free state, a single `release` (a
public operation, and not the overflow panic) wraps the word to
`usize::MAX = 2 ^ 64 - 1` on a 64-bit word, a state whose `unique_flag`
bit is set while its `shared_count` bits are all ones, not zero. -/
theorem invariant_I1_counterexample :
    Reachable 64 (2 ^ 64 - 1) ∧
    (2 ^ 64 - 1) &&& UNIQUE_MASK 64 ≠ 0 ∧
    (2 ^ 64 - 1) &&& SHARED_MASK 64 ≠ 0 := by
  have hW : (1 : Nat) ≤ 64 := by norm_num
  have hw : (2 : Nat) ^ 64 - 1 < 2 ^ 64 := by
    have : (0 : Nat) < 2 ^ 64 := Nat.pos_pow_of_pos _ (by norm_num)
    omega
  refine ⟨?_, ?_, ?_⟩
  · have hr : release 64 new = 2 ^ 64 - 1 := by
      have h0 : new < 2 ^ 64 := Nat.pos_pow_of_pos _ (by norm_num)
      rw [release_eq hW h0]
      simp [new]
    have hstep : Reachable 64 (release 64 new) :=
      Relation.ReflTransGen.single Step.release
    rwa [hr] at hstep
  · rw [and_UNIQUE hW hw]
    norm_num
  · rw [and_SHARED hW]
    norm_num
